import Mathlib

/-!
Verification of the CodeStreak commit-aggregation and streak-engine
specification against the repository sources.

The visible sources are: the Prisma schema (model `User` and the auth
models), the GitHub settings page, the `DailyCommits` component (with the
`Commit` and `ApiCommit` record types and `truncateMessage`), and two
spinner components.  The engine itself (daily aggregator, streak
calculator, fetcher, cache) is not among the visible sources, so those
parts are modelled from the specification text and marked as such in the
doc comments below.
-/

/-! ## Persisted schema (from src/unnamed/part_000, Prisma model `User`) -/

/-- Field names and declared types of the Prisma `User` model in the visible
schema (src/unnamed/part_000, `model User`). -/
def userModelFields : List (String × String) :=
  [("id", "String"), ("name", "String?"), ("username", "String?"),
   ("email", "String?"), ("emailVerified", "DateTime?"), ("image", "String?"),
   ("githubUsername", "String?"), ("githubAccessToken", "String?"),
   ("streak", "Int"), ("createdAt", "DateTime"), ("updatedAt", "DateTime"),
   ("accounts", "Account[]"), ("sessions", "Session[]")]

/-! ## Visible commit record types (from src/src/app/github/page.tsx) -/

/-- Field names and declared types of the `Commit` interface in
src/src/app/github/page.tsx. -/
def commitFields : List (String × String) :=
  [("repository", "Repository"), ("message", "string"), ("url", "string"),
   ("date", "Date"), ("additions", "number"), ("deletions", "number")]

/-- Field names and declared types of the `ApiCommit` interface in
src/src/app/github/page.tsx (the shape returned by the commits API route,
with `date` still a string). -/
def apiCommitFields : List (String × String) :=
  [("repository", "Repository"), ("message", "string"), ("url", "string"),
   ("date", "string"), ("additions", "number"), ("deletions", "number")]

/-! ## truncateMessage (from src/src/app/github/page.tsx) -/

/-- The first line of a message: the characters before the first newline.
Embeds the source expression `message.split("\x5Cn")[0]` of
src/src/app/github/page.tsx. -/
def firstLine (message : String) : String :=
  String.mk (message.data.takeWhile (fun c => c != '\n'))

/-- Embeds `truncateMessage` of src/src/app/github/page.tsx: empty string for
an empty (falsy) message, otherwise the first line, truncated to `maxLength`
characters with a trailing ellipsis when longer.  At the call sites the
default `maxLength` is 80. -/
def truncateMessage (message : String) (maxLength : Nat) : String :=
  if message = "" then ""
  else if (firstLine message).length ≤ maxLength then firstLine message
  else String.mk ((firstLine message).data.take maxLength) ++ "..."

/-- The empty message, used as a concrete evaluation input. -/
def emptyMsg : String := ""

/-- Example message with two lines, used as a concrete evaluation input. -/
def exMsg : String := "ab\ncd"

/-- Example message whose single line has 84 characters, exceeding the
default maximum of 80. -/
def longMsg : String :=
  "aaaaaaaaaaaaaaaaaaaaaaaaaaaaaaaaaaaaaaaaaaaaaaaaaaaaaaaaaaaaaaaaaaaaaaaaaaaaaaaaaaaa"

/-! ## Streak Calculator (modelled from the spec) -/

/-- Modelled from the spec: the `StreakState` state machine of the Streak
Calculator (spec data model and component design).  The Streak Calculator is
not among the visible sources; `Empty` means no active days yet, `Active n d`
an `n`-day streak ending at day `d`.  Calendar days are integers (days since
the epoch in the user-local calendar). -/
inductive StreakState where
  | Empty : StreakState
  | Active : Nat → Int → StreakState
deriving DecidableEq

/-- The current streak counter of a state. -/
def StreakState.currentStreak : StreakState → Nat
  | .Empty => 0
  | .Active n _ => n

/-- Modelled from the spec: the Streak Calculator transition on a new active
day `D` (a DayBucket for `D` becomes non-empty).  The Streak Calculator is
not among the visible sources.  Following the spec: `D = lastActiveDay + 1`
extends the streak, `D = lastActiveDay` is a no-op, `D > lastActiveDay + 1`
restarts at 1, and a backfilled `D < lastActiveDay` affects the streak only
when it is adjacent to the recorded run (extending it at the front); a day
inside the run or further in the past is stored without changing the
counter (the non-retroactive backfill policy). -/
def onActiveDay : StreakState → Int → StreakState
  | .Empty, D => .Active 1 D
  | .Active n d, D =>
      if D = d + 1 then .Active (n + 1) D
      else if D = d then .Active n d
      else if d + 1 < D then .Active 1 D
      else if D = d - (n : Int) then .Active (n + 1) d
      else .Active n d

/-- Fuelled computation of the length of the run of consecutive active days
ending at `d` inside the finite set `A`: counts down from `d` while the day
is in `A`, for at most `fuel` steps. -/
def runLenFuel (A : Finset Int) : Nat → Int → Nat
  | 0, _ => 0
  | fuel + 1, d => if d ∈ A then runLenFuel A fuel (d - 1) + 1 else 0

/-- The length of the maximal run of consecutive active days ending at `d`
in the finite set `A` of active days.  Fuel `A.card` suffices because the
run consists of distinct members of `A`. -/
def runLen (A : Finset Int) (d : Int) : Nat :=
  runLenFuel A A.card d

/-- The invariant the spec states for `StreakState`: `currentStreak` equals
the length of the maximal run of consecutive active days ending at
`lastActiveDay`, where a day is active iff it belongs to `A` (its DayBucket
is non-empty); an `Empty` state corresponds to no active days at all. -/
def streakInvariant : StreakState → Finset Int → Prop
  | .Empty, A => A = ∅
  | .Active n d, A => runLen A d = n

/-- Strengthened induction invariant: the spec invariant together with the
facts that a recorded streak is at least one day long and `lastActiveDay`
bounds every active day from above. -/
def auxInv : StreakState → Finset Int → Prop
  | .Empty, A => A = ∅
  | .Active n d, A => runLen A d = n ∧ 1 ≤ n ∧ ∀ x ∈ A, x ≤ d

/-- `stateLe s D` says the recorded last active day of `s` (if any) is at
most `D`; used to express chronological processing. -/
def stateLe : StreakState → Int → Prop
  | .Empty, _ => True
  | .Active _ d, D => d ≤ D

/-- `consecFrom d k` is the contiguous run of `k` consecutive days
`d, d+1, ..., d+k-1` with no gaps. -/
def consecFrom : Int → Nat → List Int
  | _, 0 => []
  | d, k + 1 => d :: consecFrom (d + 1) k

/-- Modelled from the spec: the result a streak query surfaces to callers, a
`StreakState` together with a staleness flag. -/
structure StreakView where
  state : StreakState
  stale : Bool

/-- Modelled from the spec: streak recomputation (Streak Calculator, not
among the visible sources).  `upstreamDays` is `none` when the upstream is
unavailable, in which case the stored previous state is left untouched and
the surfaced result carries the staleness flag; otherwise the new active
days are folded through the transition and persisted. -/
def recomputeStreak (prior : StreakState) (upstreamDays : Option (List Int)) :
    StreakState × StreakView :=
  match upstreamDays with
  | none => (prior, ⟨prior, true⟩)
  | some days =>
      (List.foldl onActiveDay prior days, ⟨List.foldl onActiveDay prior days, false⟩)

/-! ## Daily Aggregator (modelled from the spec) -/

/-- The `Repository` interface of src/src/app/github/page.tsx. -/
structure Repository where
  name : String
  fullName : String
  url : String
  isPrivate : Bool
deriving DecidableEq

/-- Modelled from the spec: the canonical `CommitRecord` of the engine data
model.  The visible sources only declare the UI-facing `Commit` shape
(`commitFields` above), which has no `sourceId`; the canonical record adds
the `sourceId` dedup key and a UTC timestamp `authoredAt` (seconds since
the epoch) as the spec describes. -/
structure CommitRecord where
  repository : Repository
  message : String
  url : String
  authoredAt : Int
  additions : Nat
  deletions : Nat
  sourceId : String
deriving DecidableEq

/-- Modelled from the spec: conversion of a commit timestamp to the user's
local calendar day using a fixed, explicit timezone offset in seconds
(never the server's local timezone): floor-divide the shifted timestamp by
86400 seconds. -/
def localDay (tzOffset : Int) (c : CommitRecord) : Int :=
  (c.authoredAt + tzOffset).fdiv 86400

/-- First-seen deduplication by `sourceId`, carrying the set of already-seen
identifiers: a commit whose `sourceId` was already observed is dropped, the
first occurrence wins. -/
def dedupAux (seen : List String) : List CommitRecord → List CommitRecord
  | [] => []
  | c :: rest =>
      if c.sourceId ∈ seen then dedupAux seen rest
      else c :: dedupAux (c.sourceId :: seen) rest

/-- Modelled from the spec: first-seen deduplication of a fetched commit
sequence by `sourceId`. -/
def dedupBySourceId (commits : List CommitRecord) : List CommitRecord :=
  dedupAux [] commits

/-- Modelled from the spec: the Daily Aggregator (not among the visible
sources).  `aggregate tzOffset commits` maps each user-local calendar day to
the DayBucket contents for that day: the set of commits, deduplicated by
`sourceId` (first seen wins), whose `authoredAt` falls on that local day. -/
def aggregate (tzOffset : Int) (commits : List CommitRecord) :
    Int → Finset CommitRecord :=
  fun d =>
    ((dedupBySourceId commits).filter (fun c => localDay tzOffset c == d)).toFinset

/-- A concrete repository, used in evaluation inputs. -/
def repoA : Repository := ⟨"r", "o\x2Fr", "u", false⟩

/-- A concrete commit with sourceId a, authored at the epoch. -/
def cA : CommitRecord := ⟨repoA, "m", "u", 0, 1, 0, "a"⟩

/-- A second observation of the same upstream commit as `cA` (same
`sourceId`, different metadata), as when the commit is seen from a mirror
repository. -/
def cA2 : CommitRecord := ⟨repoA, "m2", "u2", 50, 2, 1, "a"⟩

/-- A concrete commit with sourceId b, authored one day after the epoch. -/
def cB : CommitRecord := ⟨repoA, "m", "u", 86400, 1, 1, "b"⟩

/-! ## Day queries (claim C9) -/

/-- Embeds the guard of the `useEffect` body of the `DailyCommits` component
in src/src/app/github/page.tsx: `fetchCommits` is invoked only when the
`date` prop is truthy, so an empty date string issues no fetch at all. -/
def dailyCommitsIssuesFetch (date : String) : Bool :=
  !(date == "")

/-- Modelled from the spec: the error taxonomy of a day-commits query. -/
inductive DayQueryError where
  | InvalidDate : DayQueryError
  | UpstreamUnavailable : DayQueryError
deriving DecidableEq

/-- Outcome of a day-commits query: the surfaced result together with the
number of upstream fetch cycles that were issued. -/
structure DayQueryOutcome where
  result : Except DayQueryError (List CommitRecord)
  fetchesIssued : Nat

/-- Modelled from the spec: `getCommitsForDay(userId, date)` of the external
interface, with the error-handling policy that `InvalidDate` is a caller
error rejected immediately, before any upstream fetch is issued.  The
engine is not among the visible sources; date validation is abstracted as
`valid` and the upstream fetch cycle as `fetchDay`. -/
def getCommitsForDay (valid : String → Bool)
    (fetchDay : String → Option (List CommitRecord)) (date : String) :
    DayQueryOutcome :=
  if valid date then
    match fetchDay date with
    | some cs => ⟨Except.ok cs, 1⟩
    | none => ⟨Except.error DayQueryError.UpstreamUnavailable, 1⟩
  else ⟨Except.error DayQueryError.InvalidDate, 0⟩

/-- A concrete date validator: a date is valid iff it is non-empty (the
truthiness check the visible component performs). -/
def nonEmptyValid : String → Bool := fun d => !(d == "")

/-- A concrete upstream that is unavailable for every day. -/
def unavailableUpstream : String → Option (List CommitRecord) := fun _ => none

/-! ## Theorems for claims C2, C3 and C10 -/

/-- Claim C2 counterexample: the commit record types visible in the source
(`Commit` and `ApiCommit` in src/src/app/github/page.tsx) carry no
`sourceId` field, so a CommitRecord does not carry a unique upstream
identifier `sourceId` and no `sourceId`-based dedup key exists on these
records. -/
theorem commit_sourceId_counterexample :
    ("sourceId" ∉ List.map Prod.fst commitFields) ∧
    ("sourceId" ∉ List.map Prod.fst apiCommitFields) := by decide

/-- Claim C2 (amended): the commit records visible in the code carry exactly
the fields repository, message, url, date, additions and deletions; they
carry no `sourceId` field. -/
theorem commit_fields_amended :
    List.map Prod.fst commitFields =
      ["repository", "message", "url", "date", "additions", "deletions"] ∧
    List.map Prod.fst apiCommitFields = List.map Prod.fst commitFields ∧
    "sourceId" ∉ List.map Prod.fst commitFields := by decide

/-- Claim C3 counterexample: the persisted `User` model has no
`lastActiveDay` field (and no field named `currentStreak`), so the stored
per-user record does not contain the fields the claim lists. -/
theorem user_lastActiveDay_counterexample :
    ("lastActiveDay" ∉ List.map Prod.fst userModelFields) ∧
    ("currentStreak" ∉ List.map Prod.fst userModelFields) := by decide

/-- Claim C3 (amended): the persisted per-user record holds the streak
counter as `streak: Int` and an `updatedAt: DateTime` timestamp, but
contains no `lastActiveDay` field. -/
theorem user_schema_amended :
    (("streak", "Int") ∈ userModelFields) ∧
    (("updatedAt", "DateTime") ∈ userModelFields) ∧
    ("lastActiveDay" ∉ List.map Prod.fst userModelFields) := by decide

/-- Claim C10: with the default maximum length 80, `truncateMessage` returns
the empty string on an empty message; otherwise it returns the first line
unchanged when that line has at most 80 characters, and otherwise the first
80 characters of the first line followed by an ellipsis. -/
theorem truncateMessage_spec (message : String) :
    (message = "" → truncateMessage message 80 = "") ∧
    (message ≠ "" → (firstLine message).length ≤ 80 →
      truncateMessage message 80 = firstLine message) ∧
    (message ≠ "" → 80 < (firstLine message).length →
      truncateMessage message 80 =
        String.mk ((firstLine message).data.take 80) ++ "...") := by
  refine ⟨fun h => ?_, fun h1 h2 => ?_, fun h1 h2 => ?_⟩
  · simp [truncateMessage, h]
  · rw [truncateMessage, if_neg h1, if_pos h2]
  · rw [truncateMessage, if_neg h1, if_neg (by omega)]

/-- Concrete instances of `truncateMessage_spec`: the empty message, a short
two-line message, and a message whose first line has 84 characters. -/
theorem truncateMessage_spec_witness :
    (truncateMessage emptyMsg 80 = "") ∧
    (exMsg ≠ "" ∧ (firstLine exMsg).length ≤ 80 ∧
      truncateMessage exMsg 80 = firstLine exMsg) ∧
    (longMsg ≠ "" ∧ 80 < (firstLine longMsg).length ∧
      truncateMessage longMsg 80 =
        String.mk ((firstLine longMsg).data.take 80) ++ "...") :=
  ⟨(truncateMessage_spec emptyMsg).1 rfl,
   ⟨by decide, by decide, (truncateMessage_spec exMsg).2.1 (by decide) (by decide)⟩,
   ⟨by decide, by decide, (truncateMessage_spec longMsg).2.2 (by decide) (by decide)⟩⟩

/-! ## Theorems for claims C6, C7 and C8 -/

theorem foldl_onActiveDay_consec (k : Nat) : ∀ (n : Nat) (d : Int),
    List.foldl onActiveDay (.Active n d) (consecFrom (d + 1) k) =
      .Active (n + k) (d + (k : Int)) := by
  induction k with
  | zero => intro n d; simp [consecFrom]
  | succ k ih =>
    intro n d
    have e1 : consecFrom (d + 1) (k + 1) = (d + 1) :: consecFrom (d + 1 + 1) k := rfl
    rw [e1, List.foldl_cons]
    have e2 : onActiveDay (.Active n d) (d + 1) = .Active (n + 1) (d + 1) := by
      simp [onActiveDay]
    rw [e2, ih (n + 1) (d + 1)]
    congr 1
    · omega
    · push_cast; ring

/-- Claim C6: for a contiguous run of k+1 active days D, D+1, ..., D+k with
no gaps, processing those days through the transition on new active day,
starting from any state in which D starts a fresh one-day run, yields
`currentStreak = k + 1` with `lastActiveDay = D + k`. -/
theorem streak_monotone (s : StreakState) (D : Int) (k : Nat)
    (h : onActiveDay s D = .Active 1 D) :
    List.foldl onActiveDay s (consecFrom D (k + 1)) =
      .Active (k + 1) (D + (k : Int)) := by
  have e : consecFrom D (k + 1) = D :: consecFrom (D + 1) k := rfl
  rw [e, List.foldl_cons, h, foldl_onActiveDay_consec k 1 D]
  congr 1
  omega

/-- Concrete instance of `streak_monotone`: the empty state, days 0, 1, 2. -/
theorem streak_monotone_witness :
    onActiveDay .Empty 0 = .Active 1 0 ∧
    List.foldl onActiveDay .Empty (consecFrom 0 3) =
      .Active 3 ((0 : Int) + ((2 : Nat) : Int)) :=
  ⟨by decide, streak_monotone .Empty 0 2 (by decide)⟩

/-- Claim C7: from any streak state `Active n D`, a new active day strictly
beyond D + 1 resets the state to a one-day streak ending at that day. -/
theorem streak_break (n : Nat) (D D' : Int) (h : D + 1 < D') :
    onActiveDay (.Active n D) D' = .Active 1 D' := by
  simp only [onActiveDay]
  rw [if_neg (by omega), if_neg (by omega), if_pos h]

/-- Concrete instance of `streak_break`: a 5-day streak ending at day 10,
next active day 14. -/
theorem streak_break_witness :
    ((10 : Int) + 1 < 14) ∧ onActiveDay (.Active 5 10) 14 = .Active 1 14 :=
  ⟨by decide, streak_break 5 10 14 (by decide)⟩

/-- Claim C8: when recomputation fails because the upstream is unavailable,
the stored StreakState after the operation equals the StreakState before
it, and the result surfaced to the caller carries the staleness flag. -/
theorem recompute_atomic_on_failure (prior : StreakState) :
    (recomputeStreak prior none).fst = prior ∧
    (recomputeStreak prior none).snd.state = prior ∧
    (recomputeStreak prior none).snd.stale = true :=
  ⟨rfl, rfl, rfl⟩

/-! ## Theorems for claim C9 -/

/-- Claim C9: a day-commits query whose date fails validation is rejected
immediately with `InvalidDate` and issues no upstream fetch; and in the
visible `DailyCommits` component a query with an empty date string issues
no fetch at all. -/
theorem getCommitsForDay_invalid_date (valid : String → Bool)
    (fetchDay : String → Option (List CommitRecord)) (date : String)
    (h : valid date = false) :
    (getCommitsForDay valid fetchDay date).result =
        Except.error DayQueryError.InvalidDate ∧
    (getCommitsForDay valid fetchDay date).fetchesIssued = 0 ∧
    dailyCommitsIssuesFetch emptyMsg = false := by
  unfold getCommitsForDay
  rw [h]
  exact ⟨rfl, rfl, rfl⟩

/-- Concrete instance of `getCommitsForDay_invalid_date`: the non-emptiness
validator rejects the empty date with no fetch issued. -/
theorem getCommitsForDay_invalid_date_witness :
    nonEmptyValid emptyMsg = false ∧
    (getCommitsForDay nonEmptyValid unavailableUpstream emptyMsg).result =
        Except.error DayQueryError.InvalidDate ∧
    (getCommitsForDay nonEmptyValid unavailableUpstream emptyMsg).fetchesIssued = 0 :=
  ⟨by decide,
   (getCommitsForDay_invalid_date nonEmptyValid unavailableUpstream emptyMsg (by decide)).1,
   (getCommitsForDay_invalid_date nonEmptyValid unavailableUpstream emptyMsg (by decide)).2.1⟩

/-! ## Deduplication lemmas and theorems for claims C4 and C5 -/

theorem dedupAux_nil_of_seen (ys : List CommitRecord) : ∀ (seen : List String),
    (∀ c ∈ ys, c.sourceId ∈ seen) → dedupAux seen ys = [] := by
  induction ys with
  | nil => intro seen _; rfl
  | cons c rest ih =>
    intro seen h
    have hc : c.sourceId ∈ seen := h c (List.mem_cons_self c rest)
    simp only [dedupAux, if_pos hc]
    exact ih seen (fun x hx => h x (List.mem_cons_of_mem c hx))

theorem dedupAux_append_dups (xs : List CommitRecord) : ∀ (ys : List CommitRecord)
    (seen : List String),
    (∀ c ∈ ys, c.sourceId ∈ seen ∨ ∃ c' ∈ xs, c'.sourceId = c.sourceId) →
    dedupAux seen (xs ++ ys) = dedupAux seen xs := by
  induction xs with
  | nil =>
    intro ys seen h
    have h' : ∀ c ∈ ys, c.sourceId ∈ seen := by
      intro c hc
      rcases h c hc with h1 | ⟨c', hc', _⟩
      · exact h1
      · exact absurd hc' (List.not_mem_nil c')
    simpa using dedupAux_nil_of_seen ys seen h'
  | cons a xs ih =>
    intro ys seen h
    by_cases ha : a.sourceId ∈ seen
    · simp only [List.cons_append, dedupAux, if_pos ha]
      refine ih ys seen ?_
      intro c hc
      rcases h c hc with h1 | ⟨c', hc', he⟩
      · exact Or.inl h1
      · rcases List.mem_cons.mp hc' with rfl | hc''
        · exact Or.inl (he ▸ ha)
        · exact Or.inr ⟨c', hc'', he⟩
    · simp only [List.cons_append, dedupAux, if_neg ha]
      refine congrArg (a :: ·) (ih ys (a.sourceId :: seen) ?_)
      intro c hc
      rcases h c hc with h1 | ⟨c', hc', he⟩
      · exact Or.inl (List.mem_cons_of_mem _ h1)
      · rcases List.mem_cons.mp hc' with rfl | hc''
        · exact Or.inl (he ▸ List.mem_cons_self _ _)
        · exact Or.inr ⟨c', hc'', he⟩

theorem mem_of_mem_dedupAux : ∀ (l : List CommitRecord) (seen : List String)
    (c : CommitRecord), c ∈ dedupAux seen l → c ∈ l := by
  intro l
  induction l with
  | nil => intro seen c h; exact absurd h (List.not_mem_nil c)
  | cons a rest ih =>
    intro seen c h
    by_cases ha : a.sourceId ∈ seen
    · rw [dedupAux, if_pos ha] at h
      exact List.mem_cons_of_mem a (ih seen c h)
    · rw [dedupAux, if_neg ha] at h
      rcases List.mem_cons.mp h with rfl | h'
      · exact List.mem_cons_self c rest
      · exact List.mem_cons_of_mem a (ih _ c h')

theorem sourceId_not_seen_of_mem_dedupAux : ∀ (l : List CommitRecord)
    (seen : List String) (c : CommitRecord),
    c ∈ dedupAux seen l → c.sourceId ∉ seen := by
  intro l
  induction l with
  | nil => intro seen c h; exact absurd h (List.not_mem_nil c)
  | cons a rest ih =>
    intro seen c h
    by_cases ha : a.sourceId ∈ seen
    · rw [dedupAux, if_pos ha] at h
      exact ih seen c h
    · rw [dedupAux, if_neg ha] at h
      rcases List.mem_cons.mp h with rfl | h'
      · exact ha
      · intro hc
        exact ih _ c h' (List.mem_cons_of_mem _ hc)

theorem pairwise_dedupAux : ∀ (l : List CommitRecord) (seen : List String),
    (dedupAux seen l).Pairwise (fun a b => a.sourceId ≠ b.sourceId) := by
  intro l
  induction l with
  | nil => intro seen; exact List.Pairwise.nil
  | cons a rest ih =>
    intro seen
    by_cases ha : a.sourceId ∈ seen
    · rw [dedupAux, if_pos ha]; exact ih seen
    · rw [dedupAux, if_neg ha]
      refine List.Pairwise.cons ?_ (ih (a.sourceId :: seen))
      intro b hb hab
      exact sourceId_not_seen_of_mem_dedupAux rest _ b hb
        (hab ▸ List.mem_cons_self _ _)

theorem dedupAux_eq_self : ∀ (l : List CommitRecord) (seen : List String),
    l.Pairwise (fun a b => a.sourceId ≠ b.sourceId) →
    (∀ c ∈ l, c.sourceId ∉ seen) → dedupAux seen l = l := by
  intro l
  induction l with
  | nil => intro seen _ _; rfl
  | cons a rest ih =>
    intro seen hpw hseen
    rw [List.pairwise_cons] at hpw
    have ha : a.sourceId ∉ seen := hseen a (List.mem_cons_self a rest)
    rw [dedupAux, if_neg ha]
    refine congrArg (a :: ·) (ih (a.sourceId :: seen) hpw.2 ?_)
    intro c hc
    rw [List.mem_cons]
    rintro (he | hs)
    · exact hpw.1 c hc he.symm
    · exact hseen c (List.mem_cons_of_mem a hc) hs

theorem dedupBySourceId_idem (l : List CommitRecord) :
    dedupBySourceId (dedupBySourceId l) = dedupBySourceId l := by
  unfold dedupBySourceId
  exact dedupAux_eq_self (dedupAux [] l) [] (pairwise_dedupAux l [])
    (fun c _ => List.not_mem_nil c.sourceId)

theorem dedupBySourceId_join_replicate (n : Nat) (L : List CommitRecord) :
    dedupBySourceId (List.flatten (List.replicate (n + 1) L)) = dedupBySourceId L := by
  have e : List.flatten (List.replicate (n + 1) L) = L ++ List.flatten (List.replicate n L) := by
    rw [List.replicate_succ, List.flatten_cons]
  rw [e]
  unfold dedupBySourceId
  refine dedupAux_append_dups L (List.flatten (List.replicate n L)) [] ?_
  intro c hc
  rcases List.mem_flatten.mp hc with ⟨l', hl', hcl'⟩
  have : l' = L := (List.eq_of_mem_replicate hl')
  exact Or.inr ⟨c, this ▸ hcl', rfl⟩

/-- Claim C4: aggregation is idempotent.  Aggregating a sequence together
with any duplicates (records whose `sourceId` already occurs in the
sequence), repeated any positive number of times, yields a DayBucket
mapping identical to aggregating the deduplicated sequence once. -/
theorem aggregate_idempotent (tz : Int) (l dups : List CommitRecord) (n : Nat)
    (h : ∀ c ∈ dups, ∃ c' ∈ l, c'.sourceId = c.sourceId) :
    aggregate tz (List.flatten (List.replicate (n + 1) (l ++ dups))) =
      aggregate tz (dedupBySourceId l) := by
  have h1 : dedupBySourceId (l ++ dups) = dedupBySourceId l :=
    dedupAux_append_dups l dups [] (fun c hc => Or.inr (h c hc))
  have h2 := dedupBySourceId_join_replicate n (l ++ dups)
  funext d
  unfold aggregate
  rw [h2, h1, dedupBySourceId_idem l]

/-- Concrete instance of `aggregate_idempotent`: two commits plus a second
observation of the first one, aggregated twice. -/
theorem aggregate_idempotent_witness :
    (∀ c ∈ [cA2], ∃ c' ∈ [cA, cB], c'.sourceId = c.sourceId) ∧
    aggregate 0 (List.flatten (List.replicate 2 ([cA, cB] ++ [cA2]))) =
      aggregate 0 (dedupBySourceId [cA, cB]) :=
  ⟨by decide, aggregate_idempotent 0 [cA, cB] [cA2] 1 (by decide)⟩

theorem mem_dedupAux_of_inj : ∀ (l : List CommitRecord) (seen : List String)
    (c : CommitRecord),
    (∀ a ∈ l, ∀ b ∈ l, a.sourceId = b.sourceId → a = b) →
    c ∈ l → c.sourceId ∉ seen → c ∈ dedupAux seen l := by
  intro l
  induction l with
  | nil => intro seen c _ hc _; exact absurd hc (List.not_mem_nil c)
  | cons a rest ih =>
    intro seen c hinj hc hseen
    have hinj' : ∀ x ∈ rest, ∀ y ∈ rest, x.sourceId = y.sourceId → x = y :=
      fun x hx y hy => hinj x (List.mem_cons_of_mem a hx) y (List.mem_cons_of_mem a hy)
    by_cases ha : a.sourceId ∈ seen
    · rw [dedupAux, if_pos ha]
      rcases List.mem_cons.mp hc with rfl | hc'
      · exact absurd ha hseen
      · exact ih seen c hinj' hc' hseen
    · rw [dedupAux, if_neg ha]
      by_cases hca : c = a
      · subst hca; exact List.mem_cons_self c _
      have hc' : c ∈ rest := by
        rcases List.mem_cons.mp hc with he | h'
        · exact absurd he hca
        · exact h'
      refine List.mem_cons_of_mem a (ih (a.sourceId :: seen) c hinj' hc' ?_)
      intro hmem
      rcases List.mem_cons.mp hmem with he | hs
      · exact absurd (hinj c hc a (List.mem_cons_self a rest) he) hca
      · exact hseen hs

/-- Claim C5: day-bucketing is order-independent and deterministic.  For a
fixed set of commit records (at most one record per `sourceId`) and a fixed
explicit timezone offset, `aggregate` produces the same mapping from
calendar day to DayBucket for every permutation of the input; the only
timezone entering the computation is the explicit offset argument. -/
theorem aggregate_order_independent (tz : Int) (l l' : List CommitRecord)
    (hperm : l.Perm l')
    (hinj : ∀ a ∈ l, ∀ b ∈ l, a.sourceId = b.sourceId → a = b) :
    aggregate tz l = aggregate tz l' := by
  have hinj' : ∀ a ∈ l', ∀ b ∈ l', a.sourceId = b.sourceId → a = b :=
    fun a ha b hb => hinj a (hperm.mem_iff.mpr ha) b (hperm.mem_iff.mpr hb)
  funext d
  ext c
  simp only [aggregate, List.mem_toFinset, List.mem_filter]
  constructor
  · rintro ⟨hc, hp⟩
    have hcl : c ∈ l := mem_of_mem_dedupAux l [] c hc
    exact ⟨mem_dedupAux_of_inj l' [] c hinj' (hperm.mem_iff.mp hcl)
      (List.not_mem_nil _), hp⟩
  · rintro ⟨hc, hp⟩
    have hcl : c ∈ l' := mem_of_mem_dedupAux l' [] c hc
    exact ⟨mem_dedupAux_of_inj l [] c hinj (hperm.mem_iff.mpr hcl)
      (List.not_mem_nil _), hp⟩

/-- Concrete instance of `aggregate_order_independent`: two commits in the
two possible arrival orders. -/
theorem aggregate_order_independent_witness :
    ([cA, cB].Perm [cB, cA]) ∧ aggregate 0 [cA, cB] = aggregate 0 [cB, cA] :=
  ⟨List.Perm.swap cB cA [],
   aggregate_order_independent 0 [cA, cB] [cB, cA] (List.Perm.swap cB cA [])
     (by decide)⟩

/-! ## Run-length lemmas and theorems for claim C1 -/

theorem rlf_le (A : Finset Int) : ∀ (f : Nat) (d : Int), runLenFuel A f d ≤ f := by
  intro f
  induction f with
  | zero => intro d; simp [runLenFuel]
  | succ f ih =>
    intro d
    rw [runLenFuel]
    by_cases h : d ∈ A
    · rw [if_pos h]; exact Nat.succ_le_succ (ih (d - 1))
    · rw [if_neg h]; omega

theorem rlf_mem (A : Finset Int) : ∀ (f : Nat) (d : Int) (i : Nat),
    i < runLenFuel A f d → d - (i : Int) ∈ A := by
  intro f
  induction f with
  | zero => intro d i h; simp [runLenFuel] at h
  | succ f ih =>
    intro d i h
    rw [runLenFuel] at h
    by_cases hd : d ∈ A
    · rw [if_pos hd] at h
      cases i with
      | zero => simpa using hd
      | succ j =>
        have hj : j < runLenFuel A f (d - 1) := by omega
        have hmem := ih (d - 1) j hj
        have e : d - ((j + 1 : Nat) : Int) = d - 1 - (j : Nat) := by push_cast; ring
        rw [e]; exact hmem
    · rw [if_neg hd] at h; omega

theorem rlf_le_card (A : Finset Int) (f : Nat) (d : Int) :
    runLenFuel A f d ≤ A.card := by
  have h1 : ∀ i ∈ Finset.range (runLenFuel A f d), d - (i : Int) ∈ A := by
    intro i hi
    exact rlf_mem A f d i (Finset.mem_range.mp hi)
  have h2 : Set.InjOn (fun i : Nat => d - (i : Int))
      (Finset.range (runLenFuel A f d)) := by
    intro a _ b _ hab
    simp only at hab
    omega
  simpa using Finset.card_le_card_of_injOn _ h1 h2

theorem rlf_mono (A : Finset Int) : ∀ (f g : Nat) (d : Int), f ≤ g →
    runLenFuel A f d ≤ runLenFuel A g d := by
  intro f
  induction f with
  | zero => intro g d _; simp [runLenFuel]
  | succ f ih =>
    intro g d hfg
    obtain ⟨g', rfl⟩ : ∃ g', g = g' + 1 := ⟨g - 1, by omega⟩
    rw [runLenFuel, runLenFuel]
    by_cases hd : d ∈ A
    · rw [if_pos hd, if_pos hd]
      exact Nat.succ_le_succ (ih g' (d - 1) (by omega))
    · rw [if_neg hd, if_neg hd]

theorem rlf_step (A : Finset Int) : ∀ (f : Nat) (d : Int),
    runLenFuel A f d < f → runLenFuel A (f + 1) d = runLenFuel A f d := by
  intro f
  induction f with
  | zero => intro d h; simp [runLenFuel] at h
  | succ f ih =>
    intro d h
    by_cases hd : d ∈ A
    · rw [runLenFuel, if_pos hd] at h
      have h' : runLenFuel A f (d - 1) < f := by omega
      have e1 : runLenFuel A (f + 1 + 1) d = runLenFuel A (f + 1) (d - 1) + 1 := by
        rw [runLenFuel, if_pos hd]
      have e2 : runLenFuel A (f + 1) d = runLenFuel A f (d - 1) + 1 := by
        rw [runLenFuel, if_pos hd]
      rw [e1, e2, ih (d - 1) h']
    · have e1 : runLenFuel A (f + 1 + 1) d = 0 := by
        rw [runLenFuel, if_neg hd]
      have e2 : runLenFuel A (f + 1) d = 0 := by
        rw [runLenFuel, if_neg hd]
      rw [e1, e2]

theorem rlf_stable (A : Finset Int) (f : Nat) (d : Int)
    (h : runLenFuel A f d < f) :
    ∀ (g : Nat), f ≤ g → runLenFuel A g d = runLenFuel A f d := by
  intro g
  induction g with
  | zero =>
    intro hg
    have : f = 0 := by omega
    subst this; rfl
  | succ g ih =>
    intro hg
    rcases Nat.lt_or_ge g f with hlt | hge
    · have : f = g + 1 := by omega
      subst this; rfl
    · have e1 := ih hge
      have e2 : runLenFuel A (g + 1) d = runLenFuel A g d := by
        apply rlf_step
        rw [e1]; omega
      rw [e2, e1]

theorem rlf_card (A : Finset Int) (f : Nat) (d : Int) (h : A.card ≤ f) :
    runLenFuel A f d = runLen A d := by
  unfold runLen
  rcases Nat.lt_or_ge (runLenFuel A A.card d) A.card with hlt | hge
  · exact rlf_stable A A.card d hlt f h
  · have h1 : runLenFuel A A.card d = A.card :=
      le_antisymm (rlf_le A A.card d) hge
    have h2 : runLenFuel A f d ≤ A.card := rlf_le_card A f d
    have h3 : runLenFuel A A.card d ≤ runLenFuel A f d := rlf_mono A A.card f d h
    omega

theorem rlf_congr {A B : Finset Int} : ∀ (f : Nat) (d : Int),
    (∀ y : Int, y ≤ d → (y ∈ A ↔ y ∈ B)) →
    runLenFuel A f d = runLenFuel B f d := by
  intro f
  induction f with
  | zero => intro d _; rfl
  | succ f ih =>
    intro d h
    have hd : d ∈ A ↔ d ∈ B := h d le_rfl
    by_cases hdA : d ∈ A
    · rw [runLenFuel, if_pos hdA, runLenFuel, if_pos (hd.mp hdA),
        ih (d - 1) (fun y hy => h y (by omega))]
    · rw [runLenFuel, if_neg hdA, runLenFuel, if_neg (fun hB => hdA (hd.mpr hB))]

theorem runLen_congr {A B : Finset Int} {d : Int}
    (h : ∀ y : Int, y ≤ d → (y ∈ A ↔ y ∈ B)) : runLen A d = runLen B d := by
  rw [← rlf_card A (max A.card B.card) d (le_max_left _ _),
      ← rlf_card B (max A.card B.card) d (le_max_right _ _)]
  exact rlf_congr (max A.card B.card) d h

theorem runLen_not_mem {A : Finset Int} {d : Int} (h : d ∉ A) :
    runLen A d = 0 := by
  unfold runLen
  cases hc : A.card with
  | zero => rfl
  | succ c => rw [runLenFuel, if_neg h]

theorem runLen_mem {A : Finset Int} {d : Int} (h : d ∈ A) :
    runLen A d = runLen A (d - 1) + 1 := by
  obtain ⟨c, hc⟩ : ∃ c, A.card = c + 1 :=
    Nat.exists_eq_succ_of_ne_zero (Finset.card_ne_zero_of_mem h)
  have hB : (A.erase d).card = c := by
    rw [Finset.card_erase_of_mem h, hc]
    omega
  have hcongr : ∀ y : Int, y ≤ d - 1 → (y ∈ A ↔ y ∈ A.erase d) := by
    intro y hy
    rw [Finset.mem_erase]
    constructor
    · intro hyA; exact ⟨by omega, hyA⟩
    · intro hy'; exact hy'.2
  have e1 : runLen A d = runLenFuel A c (d - 1) + 1 := by
    unfold runLen
    rw [hc, runLenFuel, if_pos h]
  have e2 : runLenFuel A c (d - 1) = runLenFuel (A.erase d) c (d - 1) :=
    rlf_congr c (d - 1) hcongr
  have e3 : runLenFuel (A.erase d) c (d - 1) = runLen (A.erase d) (d - 1) :=
    rlf_card (A.erase d) c (d - 1) (by rw [hB])
  have e4 : runLen A (d - 1) = runLen (A.erase d) (d - 1) := runLen_congr hcongr
  omega

theorem auxInv_step (s : StreakState) (A : Finset Int) (D : Int)
    (h : auxInv s A) (hle : stateLe s D) :
    auxInv (onActiveDay s D) (insert D A) := by
  cases s with
  | Empty =>
    have hA : A = ∅ := h
    subst hA
    show auxInv (.Active 1 D) (insert D ∅)
    have hnm : D - 1 ∉ insert D (∅ : Finset Int) := by
      intro hm
      rcases Finset.mem_insert.mp hm with he | he
      · omega
      · exact absurd he (Finset.not_mem_empty _)
    refine ⟨?_, le_refl 1, ?_⟩
    · rw [runLen_mem (Finset.mem_insert_self D ∅), runLen_not_mem hnm]
    · intro x hx
      rcases Finset.mem_insert.mp hx with he | he
      · omega
      · exact absurd he (Finset.not_mem_empty _)
  | Active n d =>
    obtain ⟨hrun, hn, hbound⟩ := h
    have hd : d ≤ D := hle
    have hdA : d ∈ A := by
      by_contra hda
      rw [runLen_not_mem hda] at hrun
      omega
    by_cases h1 : D = d + 1
    · have e : onActiveDay (.Active n d) D = .Active (n + 1) D := by
        simp only [onActiveDay]; rw [if_pos h1]
      rw [e]
      subst h1
      refine ⟨?_, by omega, ?_⟩
      · rw [runLen_mem (Finset.mem_insert_self _ _)]
        have e2 : d + 1 - 1 = d := by ring
        rw [e2]
        have e3 : runLen (insert (d + 1) A) d = runLen A d := by
          apply runLen_congr
          intro y hy
          constructor
          · intro hm
            rcases Finset.mem_insert.mp hm with he | hm'
            · omega
            · exact hm'
          · exact fun hm => Finset.mem_insert_of_mem hm
        rw [e3, hrun]
      · intro x hx
        rcases Finset.mem_insert.mp hx with he | hx'
        · omega
        · have := hbound x hx'; omega
    · by_cases h2 : D = d
      · have e : onActiveDay (.Active n d) D = .Active n d := by
          simp only [onActiveDay]; rw [if_neg h1, if_pos h2]
        rw [e]
        subst h2
        rw [Finset.insert_eq_self.mpr hdA]
        exact ⟨hrun, hn, hbound⟩
      · have h3 : d + 1 < D := by omega
        have e : onActiveDay (.Active n d) D = .Active 1 D := by
          simp only [onActiveDay]; rw [if_neg h1, if_neg h2, if_pos h3]
        rw [e]
        have hnm : D - 1 ∉ insert D A := by
          intro hm
          rcases Finset.mem_insert.mp hm with he | hm'
          · omega
          · have := hbound _ hm'; omega
        refine ⟨?_, le_refl 1, ?_⟩
        · rw [runLen_mem (Finset.mem_insert_self _ _), runLen_not_mem hnm]
        · intro x hx
          rcases Finset.mem_insert.mp hx with he | hx'
          · omega
          · have := hbound x hx'; omega

theorem stateLe_step (s : StreakState) (D x : Int) (hle : stateLe s D)
    (hDx : D ≤ x) : stateLe (onActiveDay s D) x := by
  cases s with
  | Empty => exact hDx
  | Active n d =>
    have hd : d ≤ D := hle
    simp only [onActiveDay]
    split_ifs
    · exact hDx
    · exact le_trans hd hDx
    · exact hDx
    · exact le_trans hd hDx
    · exact le_trans hd hDx

theorem auxInv_foldl : ∀ (l : List Int) (s : StreakState) (A : Finset Int),
    auxInv s A → (∀ D ∈ l, stateLe s D) → l.Pairwise (fun a b => a ≤ b) →
    auxInv (List.foldl onActiveDay s l) (A ∪ l.toFinset) := by
  intro l
  induction l with
  | nil => intro s A h _ _; simpa using h
  | cons D rest ih =>
    intro s A h hle hpw
    rw [List.pairwise_cons] at hpw
    have hsD : stateLe s D := hle D (List.mem_cons_self D rest)
    have h1 : auxInv (onActiveDay s D) (insert D A) := auxInv_step s A D h hsD
    have h2 : ∀ x ∈ rest, stateLe (onActiveDay s D) x :=
      fun x hx => stateLe_step s D x hsD (hpw.1 x hx)
    have h3 := ih (onActiveDay s D) (insert D A) h1 h2 hpw.2
    rw [List.foldl_cons]
    have e : insert D A ∪ rest.toFinset = A ∪ (D :: rest).toFinset := by
      ext x
      simp [List.toFinset_cons]
    rw [← e]
    exact h3

/-- Claim C1 counterexample: under the non-retroactive backfill policy the
spec itself prescribes for the Streak Calculator, processing the active
days 10, then backfilled 8, then backfilled 9 yields `Active 2 10`, while
the maximal run of consecutive active days ending at day 10 has length 3 —
so after this engine operation the persisted state violates the claimed
invariant. -/
theorem streak_invariant_counterexample :
    ¬ streakInvariant (List.foldl onActiveDay .Empty [10, 8, 9])
        ([10, 8, 9] : List Int).toFinset := by
  intro hinv
  have e : List.foldl onActiveDay .Empty ([10, 8, 9] : List Int) =
      .Active 2 10 := by decide
  rw [e] at hinv
  have h2 : runLen (([10, 8, 9] : List Int).toFinset) 10 = 2 := hinv
  have h3 : runLen (([10, 8, 9] : List Int).toFinset) 10 = 3 := by decide
  omega

/-- Claim C1 (amended): when the engine processes new active days in
chronological (non-decreasing) order — no backfills — the persisted
StreakState satisfies the invariant: `currentStreak` equals the length of
the maximal run of consecutive active days ending at `lastActiveDay`,
where a day is active iff its DayBucket is non-empty (here: iff it occurs
among the processed days).  In this model the transition `onActiveDay` is
the sole writer of the state.  Backfilled (out-of-order) days can leave
`currentStreak` below the maximal run, as the counterexample shows. -/
theorem streak_invariant_chronological (l : List Int)
    (h : l.Pairwise (fun a b => a ≤ b)) :
    streakInvariant (List.foldl onActiveDay .Empty l) l.toFinset := by
  have h1 := auxInv_foldl l .Empty ∅ rfl (fun D _ => trivial) h
  rw [Finset.empty_union] at h1
  cases hs : List.foldl onActiveDay .Empty l with
  | Empty => rw [hs] at h1; exact h1
  | Active n d => rw [hs] at h1; exact h1.1

/-- Concrete instance of `streak_invariant_chronological`: the active days
1, 2, 5 processed in chronological order. -/
theorem streak_invariant_chronological_witness :
    (([1, 2, 5] : List Int).Pairwise (fun a b => a ≤ b)) ∧
    streakInvariant (List.foldl onActiveDay .Empty [1, 2, 5])
      ([1, 2, 5] : List Int).toFinset :=
  ⟨by decide, streak_invariant_chronological [1, 2, 5] (by decide)⟩
